import Mathlib

/-!
# LFTManager (`src/server/lib/lftmanager.cpp`): a shallow embedding

The manager keeps a global `QMap<QString, fs_buf*>` from mount-point paths to
file-name indexes.  This file embeds the registry and the operations on it
(`getFsBufByPath`, `hasLFT`, `lftBuinding`, `addPath`, `refresh`, `sync`,
`search`, `getLFTFileByPath`) as pure functions and proves properties of them.

Conventions of the embedding.

* A `QString` and a `QByteArray` are both lists of characters, one character
  per code unit; the 8-bit conversions (`toLocal8Bit`, `fromLocal8Bit`,
  `toUtf8`) are the identity, as they are on ASCII text.
* An `fs_buf*` is `FsBufPtr`: `nullptr`, the marker `(fs_buf*)0x01`, or the
  address of a live buffer.
* The global map is `Option FSBufMap`: `none` while the `Q_GLOBAL_STATIC` has
  not been created (`exists()` is false); `operator->` creates it.
* Everything the file does not define (the `fs_buf` C library, `LFTDiskTool`,
  `QStorageInfo`, the cache directory, the outcome of file writes and loads)
  is a parameter of the function that uses it.
-/

namespace LFT

/-! ## Qt strings -/

/-- A `QString`: the sequence of its characters. -/
abbrev QString := List Char

/-- A `QByteArray`: the sequence of its bytes, one character per byte. -/
abbrev QByteArray := List Char

/-- The method `QString::startsWith(s)`. -/
def startsWith (s : QString) (pre : QString) : Bool := pre.isPrefixOf s

/-- The method `QString::endsWith(c)`. -/
def endsWith (s : QString) (c : Char) : Bool := s.getLast? == some c

/-- The method `QString::mid(n)`: the text from position `n` on. -/
def mid (s : QString) (n : Nat) : QString := s.drop n

/-- The method `QString::left(n)`: the first `n` characters. -/
def left (s : QString) (n : Nat) : QString := s.take n

/-- The method `QString::chop(n)`: removes `n` characters from the END of the string
(everything, when the string is shorter). -/
def chop (s : QString) (n : Nat) : QString := s.take (s.length - n)

/-- The method `QString::lastIndexOf(c)`: position of the last `c`, `none` for `-1`. -/
def lastIndexOf (c : Char) : QString → Option Nat
  | [] => none
  | x :: xs =>
    match lastIndexOf c xs with
    | some i => some (i + 1)
    | none => if x = c then some 0 else none

/-! ## The registry: `QMap<QString, fs_buf*>` -/

/-- The value of an `fs_buf*`. -/
inductive FsBufPtr where
  /-- `nullptr`: the key is present, its index is still being built. -/
  | null : FsBufPtr
  /-- `(fs_buf*)0x01`: the marker the lookups use for "no such key". -/
  | sentinel : FsBufPtr
  /-- The address of a live `fs_buf`. -/
  | buf (addr : Nat) : FsBufPtr
  deriving DecidableEq, Repr

/-- Conversion of a pointer to `bool`: true unless it is `nullptr`. -/
def FsBufPtr.toBool : FsBufPtr → Bool
  | .null => false
  | _ => true

/-- The type `typedef QMap<QString, fs_buf*> FSBufMap`: the entries in iteration order
(ascending key order when built with `FSBufMap.insert`). -/
abbrev FSBufMap := List (QString × FsBufPtr)

/-- The global `_global_fsBufMap`: `none` until the static is created. -/
abbrev Global := Option FSBufMap

/-- The method `QMap::value(key, defaultValue)`. -/
def FSBufMap.value : FSBufMap → QString → FsBufPtr → FsBufPtr
  | [], _, d => d
  | (k, v) :: rest, key, d => if k = key then v else FSBufMap.value rest key d

/-- The method `QMap::contains(key)`. -/
def FSBufMap.contains : FSBufMap → QString → Bool
  | [], _ => false
  | (k, _) :: rest, key => if k = key then true else FSBufMap.contains rest key

/-- The assignment `QMap::operator[](key) = v`: replaces the value of `key`, or inserts the
entry at its place in key order. -/
def FSBufMap.insert : FSBufMap → QString → FsBufPtr → FSBufMap
  | [], key, v => [(key, v)]
  | (k, w) :: rest, key, v =>
    if k = key then (key, v) :: rest
    else if key < k then (key, v) :: (k, w) :: rest
    else (k, w) :: FSBufMap.insert rest key v

/-- The method `QMap::remove(key)`. -/
def FSBufMap.remove (m : FSBufMap) (key : QString) : FSBufMap :=
  m.filter (fun e => !decide (e.1 = key))

/-- The method `QMap::keys()`. -/
def FSBufMap.keys (m : FSBufMap) : List QString := m.map Prod.fst

/-- The access `_global_fsBufMap->`: the map, created empty on first access. -/
def Global.deref (g : Global) : FSBufMap := g.getD []

/-! ## `getFsBufByPath`, `hasLFT`, `lftBuinding` -/

/-- The hit branch of `getFsBufByPath` (lines 191-199): the rewriting of `path`
once `result_path` was found in the map with root path `root`. -/
def rewritePath (path result_path root : QString) : QString :=
  let path1 := mid path result_path.length
  let path2 := if !path1.isEmpty then chop path1 1 else path1
  let path3 := root ++ path2
  if endsWith path3 '/' then chop path3 1 else path3

/-- The `do ... while` loop of `getFsBufByPath` (lines 187-216).  `rootPath`
is `storage_info.rootPath()`, `get_root_path` the root path of a buffer; the
result is the returned pointer and the value `path` has afterwards.  Every
round shortens `result_path`; `none` means the fuel ran out. -/
def getFsBufByPathLoop (m : FSBufMap) (rootPath : QString)
    (get_root_path : FsBufPtr → QString) (default_value : FsBufPtr) (path : QString) :
    Nat → QString → Option (FsBufPtr × QString)
  | 0, _ => none
  | fuel + 1, result_path =>
    let buf := m.value result_path FsBufPtr.sentinel
    if buf ≠ FsBufPtr.sentinel then
      some (buf, rewritePath path result_path (get_root_path buf))
    else if result_path = ['/'] then some (default_value, path)
    else
      match lastIndexOf '/' result_path with
      | none => some (default_value, path)
      | some last_dir_split_pos =>
        let result_path1 := left result_path last_dir_split_pos
        let result_path2 := if result_path1.isEmpty then ['/'] else result_path1
        if result_path2 ≠ rootPath then
          getFsBufByPathLoop m rootPath get_root_path default_value path fuel result_path2
        else some (default_value, path)

/-- The function `getFsBufByPath(path, default_value)`.  `storage path` is
`QStorageInfo(path)`: `none` when it is not valid, else its `rootPath()`. -/
def getFsBufByPath (g : Global) (storage : QString → Option QString)
    (get_root_path : FsBufPtr → QString) (path : QString) (default_value : FsBufPtr) :
    Option (FsBufPtr × QString) :=
  match g with
  | none => some (default_value, path)
  | some m =>
    if !startsWith path ['/'] then some (default_value, path)
    else
      match storage path with
      | none => some (default_value, path)
      | some rootPath =>
        getFsBufByPathLoop m rootPath get_root_path default_value path (path.length + 1) path

/-- The method `LFTManager::hasLFT(path)`. -/
def hasLFT (g : Global) (storage : QString → Option QString)
    (get_root_path : FsBufPtr → QString) (path : QString) : Option Bool :=
  (getFsBufByPath g storage get_root_path path FsBufPtr.null).map (fun r => r.1.toBool)

/-- The method `LFTManager::lftBuinding(path)`. -/
def lftBuinding (g : Global) (storage : QString → Option QString)
    (get_root_path : FsBufPtr → QString) (path : QString) : Option Bool :=
  (getFsBufByPath g storage get_root_path path FsBufPtr.sentinel).map (fun r => r.1.toBool)

/-! ## Persistence naming: `getLFTFileByPath` -/

/-- The digit table of the Qt function `toHexUpper`: `"0123456789ABCDEF"[value & 0xF]`. -/
def toHexUpper (value : Nat) : Char := "0123456789ABCDEF".toList.getD (value % 16) '0'

/-- The bytes `QByteArray::toPercentEncoding` never escapes on its own:
ALPHA, DIGIT, `-`, `.`, `_`, `~`. -/
def isUnreserved (c : Char) : Bool :=
  (0x61 ≤ c.toNat && c.toNat ≤ 0x7A) || (0x41 ≤ c.toNat && c.toNat ≤ 0x5A)
    || (0x30 ≤ c.toNat && c.toNat ≤ 0x39)
    || c.toNat == 0x2D || c.toNat == 0x2E || c.toNat == 0x5F || c.toNat == 0x7E

/-- One round of the loop of the Qt function `q_toPercentEncoding`: the output for the
byte `c`. -/
def encodeByte (dontEncode alsoEncode : QByteArray) (c : Char) : QByteArray :=
  if (isUnreserved c || dontEncode.contains c) && !alsoEncode.contains c then [c]
  else ['%', toHexUpper (c.toNat / 16), toHexUpper (c.toNat % 16)]

/-- The method `QByteArray::toPercentEncoding(exclude, include)` of Qt: the
bytes of its first argument (`dontEncode`) are kept as they are, the bytes of
its second argument (`alsoEncode`) are always escaped. -/
def toPercentEncoding (ba : QByteArray) (dontEncode alsoEncode : QByteArray) : QByteArray :=
  match ba with
  | [] => []
  | c :: rest => encodeByte dontEncode alsoEncode c ++ toPercentEncoding rest dontEncode alsoEncode

/-- The digit conversion of the Qt function `q_fromPercentEncoding`; a byte that is no
hexadecimal digit is left as it is. -/
def hexDigitValue (a : Nat) : Nat :=
  if 0x30 ≤ a ∧ a ≤ 0x39 then a - 0x30
  else if 0x61 ≤ a ∧ a ≤ 0x66 then a - 0x61 + 10
  else if 0x41 ≤ a ∧ a ≤ 0x46 then a - 0x41 + 10
  else a

/-- The method `QByteArray::fromPercentEncoding` of the Qt library. -/
def fromPercentEncoding : QByteArray → QByteArray
  | [] => []
  | [c] => [c]
  | [c, d] => [c, d]
  | c :: a :: b :: rest =>
    if c = '%' then
      Char.ofNat ((hexDigitValue a.toNat * 16 ||| hexDigitValue b.toNat) % 256)
        :: fromPercentEncoding rest
    else c :: fromPercentEncoding (a :: b :: rest)

/-- The function `getLFTFileByPath(path)`: the cache file of the index that holds `path`.
`pathToSerialUri` is `LFTDiskTool::pathToSerialUri`, `cache_path` the result of
`getCacheDir()`. -/
def getLFTFileByPath (pathToSerialUri : QString → QByteArray) (cache_path : QString)
    (path : QString) : QString :=
  let lft_file_name := pathToSerialUri path
  if lft_file_name.isEmpty then []
  else
    let lft_file_name1 := lft_file_name ++ ".lft".toList
    if cache_path.isEmpty then []
    else cache_path ++ "/".toList ++ toPercentEncoding lft_file_name1 ":".toList "/".toList

/-- The filter `onMountAdded` hands to `refresh` (lines 480-482):
`serial_uri.toPercentEncoding(":", "/")`. -/
def onMountAddedFilter (pathToSerialUri : QString → QByteArray) (mount_root : QString) :
    QByteArray :=
  toPercentEncoding (pathToSerialUri mount_root) ":".toList "/".toList

/-! ## `addPath` -/

/-- What a call of `addPath` leaves behind. -/
inductive AddPathResult where
  /-- The call returned `false`; the global map is as given. -/
  | rejected (g : Global) : AddPathResult
  /-- The call returned `true`: the global map, the `path_list` captured by the
  completion handler, and the directory handed to `buildFSBuf`. -/
  | accepted (g : Global) (path_list : List QString) (build_root : QString) : AddPathResult
  deriving DecidableEq, Repr

/-- The loop `for (path : path_list) map[path] = nullptr` of `addPath`. -/
def markBuilding : List QString → FSBufMap → FSBufMap
  | [], m => m
  | path :: rest, m => markBuilding rest (m.insert path FsBufPtr.null)

/-- The method `LFTManager::addPath(path)` up to its `return`; `none` is the
undefined `path_list.first()` on an empty list. -/
def addPath (pathToSerialUri : QString → QByteArray) (fromSerialUri : QByteArray → List QString)
    (g : Global) (path : QString) : Option AddPathResult :=
  if !startsWith path ['/'] then some (AddPathResult.rejected g)
  else if g.deref.contains path then some (AddPathResult.rejected (some g.deref))
  else
    let serial_uri := pathToSerialUri path
    if serial_uri.isEmpty then some (AddPathResult.rejected (some g.deref))
    else
      let path_list := fromSerialUri serial_uri
      match path_list.head? with
      | none => none
      | some path1 =>
        some (AddPathResult.accepted (some (markBuilding path_list g.deref)) path_list
          (if endsWith path1 '/' then path1 else path1 ++ ['/']))

/-- The handler `addPath` connects to `QFutureWatcher::finished` (lines
148-162), run on the global map as it is at that time; `buf` is the result of
`buildFSBuf`. -/
def addPathFinished : List QString → FsBufPtr → Global → Global
  | [], _, g => g
  | path :: rest, buf, g =>
    addPathFinished rest buf
      (some (if buf.toBool then g.deref.insert path buf else g.deref.remove path))

/-! ## `refresh` -/

/-- The function `clearFsBufMap()`: every buffer is freed and the map emptied. -/
def clearFsBufMap (_g : Global) : Global := some []

/-- The inner loop of `refresh` (lines 278-282) for one loaded buffer. -/
def refreshInstall (buf : FsBufPtr) :
    List QString → FSBufMap × List QString → FSBufMap × List QString
  | [], st => st
  | path :: rest, st =>
    refreshInstall buf rest (st.1.insert (chop path 4) buf, st.2 ++ [chop path 4])

/-- The `while (dir_iterator.hasNext())` loop of `refresh` over the file names
the iterator yields.  `load_fs_buf` gives the address of the loaded buffer, or
`none` when the C function does not return 0. -/
def refreshLoop (cache_path : QString) (serialUriFilter : QByteArray)
    (load_fs_buf : QString → Option Nat) (fromSerialUri : QByteArray → List QString) :
    List QString → FSBufMap × List QString → FSBufMap × List QString
  | [], st => st
  | fileName :: rest, st =>
    if !serialUriFilter.isEmpty && !startsWith fileName serialUriFilter then
      refreshLoop cache_path serialUriFilter load_fs_buf fromSerialUri rest st
    else
      match load_fs_buf (cache_path ++ ['/'] ++ fileName) with
      | none => refreshLoop cache_path serialUriFilter load_fs_buf fromSerialUri rest st
      | some addr =>
        refreshLoop cache_path serialUriFilter load_fs_buf fromSerialUri rest
          (refreshInstall (FsBufPtr.buf addr) (fromSerialUri (fromPercentEncoding fileName)) st)

/-- The method `LFTManager::refresh(serialUriFilter)`: the map afterwards and the
returned `path_list`.  `files` are the names the `QDirIterator` over the
`*.lft` entries of `cache_path` yields. -/
def refresh (cache_path : QString) (files : List QString) (load_fs_buf : QString → Option Nat)
    (fromSerialUri : QByteArray → List QString) (g : Global) (serialUriFilter : QByteArray) :
    Global × List QString :=
  let st := refreshLoop cache_path serialUriFilter load_fs_buf fromSerialUri files
    ((clearFsBufMap g).deref, [])
  (some st.1, st.2)

/-! ## `sync` -/

/-- The local state of the loop of `sync`, with the calls of `save_fs_buf`
made so far (the key being visited, the buffer, the file). -/
structure SyncState where
  path_list : List QString
  saved_buf_list : List FsBufPtr
  saves : List (QString × FsBufPtr × QString)
  deriving DecidableEq, Repr

/-- The loop of `sync` (lines 298-327) over the entries of the map.
`rootPath key` is `QStorageInfo(key).rootPath()`, `lftFile` is
`getLFTFileByPath`, and `save_fs_buf buf file` tells whether the C function
returned 0. -/
def syncLoop (rootPath : QString → QString) (lftFile : QString → QString)
    (save_fs_buf : FsBufPtr → QString → Bool) (mountPoint : QString) :
    FSBufMap → SyncState → SyncState
  | [], st => st
  | (path, buf) :: rest, st =>
    if !buf.toBool then syncLoop rootPath lftFile save_fs_buf mountPoint rest st
    else if !mountPoint.isEmpty && rootPath path != mountPoint then
      syncLoop rootPath lftFile save_fs_buf mountPoint rest st
    else if st.saved_buf_list.contains buf then
      syncLoop rootPath lftFile save_fs_buf mountPoint rest
        { st with path_list := st.path_list ++ [path] }
    else
      syncLoop rootPath lftFile save_fs_buf mountPoint rest
        { path_list :=
            if save_fs_buf buf (lftFile path) then st.path_list ++ [path] else st.path_list
          saved_buf_list := st.saved_buf_list ++ [buf]
          saves := st.saves ++ [(path, buf, lftFile path)] }

/-- The method `LFTManager::sync(mountPoint)`.  `mkpath` is the outcome of
`QDir::home().mkpath(getCacheDir())`. -/
def sync (mkpath : Bool) (rootPath : QString → QString) (lftFile : QString → QString)
    (save_fs_buf : FsBufPtr → QString → Bool) (g : Global) (mountPoint : QString) : SyncState :=
  if !mkpath then ⟨[], [], []⟩
  else syncLoop rootPath lftFile save_fs_buf mountPoint g.deref ⟨[], [], []⟩

/-! ## `search` -/

/-- The constant `#define MAX_RESULT_COUNT 1000`. -/
def MAX_RESULT_COUNT : Nat := 1000

/-- The `do ... while (count == MAX_RESULT_COUNT)` loop of `search` over the
batches the successive calls of `search_files` deliver (a call after the last
batch delivers nothing); `translate` is the body of the inner `for`. -/
def searchLoop (translate : QString → QString) : List (List QString) → List QString
  | [] => []
  | batch :: rest =>
    batch.map translate ++
      (if batch.length = MAX_RESULT_COUNT then searchLoop translate rest else [])

/-- The method `LFTManager::search(path, keyword, useRegExp)`.  `reValid` is
`QRegularExpression::isValid` of the keyword; `scan buf new_path keyword
useRegExp` are the batches of matching index paths that `get_path_range`,
`search_files` and `get_path_by_name_off` produce.  `strlen(root) - 1` is a
truncated subtraction: `mid` of a negative position is the whole string. -/
def search (g : Global) (storage : QString → Option QString)
    (get_root_path : FsBufPtr → QString) (reValid : QString → Bool)
    (scan : FsBufPtr → QString → QString → Bool → List (List QString))
    (path keyword : QString) (useRegExp : Bool) : Option (List QString) :=
  match getFsBufByPath g storage get_root_path path FsBufPtr.null with
  | none => none
  | some (buf, new_path) =>
    if !buf.toBool then some []
    else if useRegExp && !reValid keyword then some []
    else
      let buf_root_path_length := (get_root_path buf).length - 1
      let need_reset_root_path := decide (path ≠ new_path)
      some (searchLoop
        (fun origin_path =>
          if need_reset_root_path then path ++ mid origin_path buf_root_path_length
          else origin_path)
        (scan buf new_path keyword useRegExp))

/-! ## Predicates used in the statements -/

/-- The mount-point filter of `sync` lets key `k` through: no mount point was
given, or the storage root of `k` is the mount point. -/
def passesFilter (rootPath : QString → QString) (mountPoint : QString) (k : QString) : Bool :=
  mountPoint.isEmpty || rootPath k == mountPoint

/-- The paths one cache file adds to the registry and to the list `refresh`
returns: nothing when the file is filtered out or does not load, else the
paths `fromSerialUri` gives for the decoded file name, each chopped by four
characters. -/
def refreshContribution (cache_path : QString) (serialUriFilter : QByteArray)
    (load_fs_buf : QString → Option Nat) (fromSerialUri : QByteArray → List QString)
    (fileName : QString) : List QString :=
  if !serialUriFilter.isEmpty && !startsWith fileName serialUriFilter then []
  else
    match load_fs_buf (cache_path ++ ['/'] ++ fileName) with
    | none => []
    | some _ => (fromSerialUri (fromPercentEncoding fileName)).map (fun p => chop p 4)

/-! # Theorems -/

/-! ## Lemmas on the map -/

theorem FSBufMap.value_insert_self (m : FSBufMap) (k : QString) (v d : FsBufPtr) :
    (m.insert k v).value k d = v := by
  induction m with
  | nil => simp [FSBufMap.insert, FSBufMap.value]
  | cons e rest ih =>
    obtain ⟨k1, w⟩ := e
    unfold FSBufMap.insert
    by_cases h1 : k1 = k
    · simp [h1, FSBufMap.value]
    · by_cases h2 : k < k1
      · simp [h1, h2, FSBufMap.value]
      · simp [h1, h2, FSBufMap.value, ih]

theorem FSBufMap.value_insert_of_ne (m : FSBufMap) (k k2 : QString) (v d : FsBufPtr)
    (hne : k ≠ k2) : (m.insert k v).value k2 d = m.value k2 d := by
  induction m with
  | nil => simp [FSBufMap.insert, FSBufMap.value, hne]
  | cons e rest ih =>
    obtain ⟨k1, w⟩ := e
    unfold FSBufMap.insert
    by_cases h1 : k1 = k
    · subst h1
      simp [FSBufMap.value, hne]
    · by_cases h2 : k < k1
      · simp [h1, h2, FSBufMap.value, hne]
      · by_cases h3 : k1 = k2
        · subst h3
          simp [h1, h2, FSBufMap.value]
        · simp [h1, h2, FSBufMap.value, h3, ih]

theorem FSBufMap.contains_iff_mem_keys (m : FSBufMap) (k : QString) :
    m.contains k = true ↔ k ∈ m.keys := by
  induction m with
  | nil => simp only [FSBufMap.contains, FSBufMap.keys, List.map_nil, List.not_mem_nil,
      Bool.false_eq_true]
  | cons e rest ih =>
    obtain ⟨k1, w⟩ := e
    simp only [FSBufMap.keys] at ih
    by_cases h1 : k1 = k
    · simp only [FSBufMap.contains, FSBufMap.keys, h1, if_true, List.map_cons, List.mem_cons,
        true_or]
    · have h2 : ¬ k = k1 := fun h => h1 h.symm
      simp only [FSBufMap.contains, h1, if_false, ih, FSBufMap.keys, List.map_cons,
        List.mem_cons, h2, false_or]

theorem FSBufMap.mem_insert (m : FSBufMap) (k : QString) (v : FsBufPtr)
    (e : QString × FsBufPtr) (he : e ∈ m.insert k v) : e = (k, v) ∨ e ∈ m := by
  induction m with
  | nil => simpa [FSBufMap.insert] using he
  | cons e1 rest ih =>
    obtain ⟨k1, w⟩ := e1
    unfold FSBufMap.insert at he
    by_cases h1 : k1 = k
    · simp only [h1, if_true, List.mem_cons] at he
      rcases he with he | he
      · exact Or.inl he
      · exact Or.inr (List.mem_cons_of_mem _ he)
    · by_cases h2 : k < k1
      · simp only [h1, h2, if_false, if_true, List.mem_cons] at he
        rcases he with he | he | he
        · exact Or.inl he
        · exact Or.inr (he ▸ List.mem_cons_self _ _)
        · exact Or.inr (List.mem_cons_of_mem _ he)
      · simp only [h1, h2, if_false, List.mem_cons] at he
        rcases he with he | he
        · exact Or.inr (he ▸ List.mem_cons_self _ _)
        · rcases ih he with h | h
          · exact Or.inl h
          · exact Or.inr (List.mem_cons_of_mem _ h)

theorem FSBufMap.mem_keys_insert (m : FSBufMap) (k k2 : QString) (v : FsBufPtr) :
    k2 ∈ (m.insert k v).keys ↔ k2 = k ∨ k2 ∈ m.keys := by
  induction m with
  | nil => simp only [FSBufMap.insert, FSBufMap.keys, List.map_cons, List.map_nil,
      List.mem_cons, List.not_mem_nil]
  | cons e1 rest ih =>
    obtain ⟨k1, w⟩ := e1
    simp only [FSBufMap.keys] at ih
    unfold FSBufMap.insert
    by_cases h1 : k1 = k
    · subst h1
      simp only [if_true, FSBufMap.keys, List.map_cons, List.mem_cons]
      tauto
    · by_cases h2 : k < k1
      · simp only [h1, h2, if_false, if_true, FSBufMap.keys, List.map_cons, List.mem_cons]
      · simp only [h1, h2, if_false, FSBufMap.keys, List.map_cons, List.mem_cons, ih]
        tauto

theorem FSBufMap.contains_insert (m : FSBufMap) (k k2 : QString) (v : FsBufPtr) :
    (m.insert k v).contains k2 = true ↔ k2 = k ∨ m.contains k2 = true := by
  rw [FSBufMap.contains_iff_mem_keys, FSBufMap.contains_iff_mem_keys, FSBufMap.mem_keys_insert]

theorem FSBufMap.contains_remove (m : FSBufMap) (k k2 : QString) :
    (m.remove k).contains k2 = true ↔ k2 ≠ k ∧ m.contains k2 = true := by
  rw [FSBufMap.contains_iff_mem_keys, FSBufMap.contains_iff_mem_keys]
  simp only [FSBufMap.remove, FSBufMap.keys, List.mem_map, List.mem_filter]
  constructor
  · rintro ⟨e, ⟨he, hk⟩, rfl⟩
    exact ⟨by simpa using hk, e, he, rfl⟩
  · rintro ⟨hne, e, he, rfl⟩
    exact ⟨e, ⟨he, by simpa using hne⟩, rfl⟩

/-! ## Lemmas on `addPath` -/

theorem addPathFinished_built (L : List QString) (addr : Nat) (g : Global) (p : QString)
    (h : p ∈ L ∨ (g.deref.contains p = true ∧
      g.deref.value p FsBufPtr.sentinel = FsBufPtr.buf addr)) :
    (addPathFinished L (FsBufPtr.buf addr) g).deref.contains p = true ∧
      (addPathFinished L (FsBufPtr.buf addr) g).deref.value p FsBufPtr.sentinel
        = FsBufPtr.buf addr := by
  induction L generalizing g with
  | nil =>
    rcases h with h | h
    · simp at h
    · simpa [addPathFinished] using h
  | cons q rest ih =>
    simp only [addPathFinished, FsBufPtr.toBool, if_true]
    apply ih
    by_cases hq : q = p
    · right
      subst hq
      exact ⟨(FSBufMap.contains_insert _ _ _ _).2 (Or.inl rfl),
        FSBufMap.value_insert_self _ _ _ _⟩
    · rcases h with h | h
      · left
        rcases List.mem_cons.1 h with h | h
        · exact absurd h.symm hq
        · exact h
      · right
        refine ⟨(FSBufMap.contains_insert _ _ _ _).2 (Or.inr h.1), ?_⟩
        simp only [Global.deref, Option.getD_some]
        rw [FSBufMap.value_insert_of_ne _ _ _ _ _ hq]
        exact h.2

theorem addPathFinished_failed (L : List QString) (g : Global) (p : QString)
    (h : p ∈ L ∨ g.deref.contains p = false) :
    (addPathFinished L FsBufPtr.null g).deref.contains p = false := by
  induction L generalizing g with
  | nil =>
    rcases h with h | h
    · simp at h
    · simpa [addPathFinished] using h
  | cons q rest ih =>
    simp only [addPathFinished, FsBufPtr.toBool, Bool.false_eq_true, if_false]
    apply ih
    by_cases hq : p = q
    · right
      subst hq
      rw [Bool.eq_false_iff]
      intro hc
      exact ((FSBufMap.contains_remove _ _ _).1 hc).1 rfl
    · rcases h with h | h
      · left
        rcases List.mem_cons.1 h with h | h
        · exact absurd h hq
        · exact h
      · right
        rw [Bool.eq_false_iff]
        intro hc
        have h2 := ((FSBufMap.contains_remove _ _ _).1 hc).2
        rw [h] at h2
        exact Bool.false_ne_true h2

theorem getFsBufByPath_key (m : FSBufMap) (storage : QString → Option QString)
    (get_root_path : FsBufPtr → QString) (p : QString) (d v : FsBufPtr)
    (habs : startsWith p ['/'] = true) (hst : (storage p).isSome = true)
    (hv : m.value p FsBufPtr.sentinel = v) (hne : v ≠ FsBufPtr.sentinel) :
    getFsBufByPath (some m) storage get_root_path p d
      = some (v, rewritePath p p (get_root_path v)) := by
  obtain ⟨root, hroot⟩ := Option.isSome_iff_exists.1 hst
  simp [getFsBufByPath, habs, hroot, getFsBufByPathLoop, hv, hne]

theorem addPathFinished_some (L : List QString) (b : FsBufPtr) (m : FSBufMap) :
    ∃ m2, addPathFinished L b (some m) = some m2 := by
  induction L generalizing m with
  | nil => exact ⟨m, rfl⟩
  | cons q rest ih => exact ih _

theorem addPathFinished_some_of_mem (L : List QString) (b : FsBufPtr) (g : Global)
    (p : QString) (hp : p ∈ L) : ∃ m2, addPathFinished L b g = some m2 := by
  cases L with
  | nil => simp at hp
  | cons q rest => exact addPathFinished_some rest b _

/-- C3: an accepted `addPath(p1)` captures the mount-point list
`L = fromSerialUri(pathToSerialUri(p1))` and marks each member as a key; when
the build then completes with a buffer, every member of `L` is a key mapped to
that one buffer, so `hasLFT` holds for every member that is an absolute path on
a valid storage; when the build fails, no member of `L` is a key.  The
completion may find the registry in any state `g2`. -/
theorem addPath_mount_aliasing (pathToSerialUri : QString → QByteArray)
    (fromSerialUri : QByteArray → List QString) (g g1 : Global) (p1 build_root : QString)
    (L : List QString)
    (hacc : addPath pathToSerialUri fromSerialUri g p1
      = some (AddPathResult.accepted g1 L build_root)) :
    L = fromSerialUri (pathToSerialUri p1) ∧
    (∀ p ∈ L, g1.deref.contains p = true) ∧
    (∀ (g2 : Global) (addr : Nat) (p : QString), p ∈ L →
      (addPathFinished L (FsBufPtr.buf addr) g2).deref.contains p = true ∧
      (addPathFinished L (FsBufPtr.buf addr) g2).deref.value p FsBufPtr.sentinel
        = FsBufPtr.buf addr ∧
      ∀ (storage : QString → Option QString) (get_root_path : FsBufPtr → QString),
        startsWith p ['/'] = true → (storage p).isSome = true →
        hasLFT (addPathFinished L (FsBufPtr.buf addr) g2) storage get_root_path p
          = some true) ∧
    (∀ (g2 : Global) (p : QString), p ∈ L →
      (addPathFinished L FsBufPtr.null g2).deref.contains p = false) := by
  have hL : L = fromSerialUri (pathToSerialUri p1) ∧ g1 = some (markBuilding L g.deref) := by
    unfold addPath at hacc
    split at hacc
    · simp at hacc
    · split at hacc
      · simp at hacc
      · simp only at hacc
        split at hacc
        · simp at hacc
        · split at hacc
          · simp at hacc
          · simp only [Option.some.injEq, AddPathResult.accepted.injEq] at hacc
            obtain ⟨h1, h2, _⟩ := hacc
            exact ⟨h2.symm, by rw [← h1, h2]⟩
  refine ⟨hL.1, ?_, ?_, ?_⟩
  · intro p hp
    rw [hL.2]
    have key : ∀ (L : List QString) (m : FSBufMap),
        (p ∈ L ∨ m.contains p = true) → (markBuilding L m).contains p = true := by
      intro L
      induction L with
      | nil =>
        intro m h
        rcases h with h | h
        · simp at h
        · exact h
      | cons q rest ih =>
        intro m h
        simp only [markBuilding]
        apply ih
        by_cases hq : p = q
        · exact Or.inr ((FSBufMap.contains_insert _ _ _ _).2 (Or.inl hq))
        · rcases h with h | h
          · rcases List.mem_cons.1 h with h | h
            · exact absurd h hq
            · exact Or.inl h
          · exact Or.inr ((FSBufMap.contains_insert _ _ _ _).2 (Or.inr h))
    exact key L _ (Or.inl hp)
  · intro g2 addr p hp
    have hb := addPathFinished_built L addr g2 p (Or.inl hp)
    refine ⟨hb.1, hb.2, ?_⟩
    intro storage get_root_path habs hst
    obtain ⟨m2, hm2⟩ := addPathFinished_some_of_mem L (FsBufPtr.buf addr) g2 p hp
    rw [hm2] at hb ⊢
    have hv : m2.value p FsBufPtr.sentinel = FsBufPtr.buf addr := hb.2
    unfold hasLFT
    rw [getFsBufByPath_key m2 storage get_root_path p FsBufPtr.null (FsBufPtr.buf addr)
      habs hst hv (by simp)]
    rfl
  · intro g2 p hp
    exact addPathFinished_failed L g2 p (Or.inl hp)

/-- C3, at `addPath("/x")` for a device mounted on `/x` and `/y`: the call is
accepted, and once the build delivers buffer 5 `hasLFT("/y")` holds. -/
theorem addPath_mount_aliasing_witness :
    addPath (fun _ => "serial:X".toList) (fun _ => ["/x".toList, "/y".toList]) (some [])
        "/x".toList
      = some (AddPathResult.accepted
          (some [("/x".toList, FsBufPtr.null), ("/y".toList, FsBufPtr.null)])
          ["/x".toList, "/y".toList] "/x/".toList) ∧
    hasLFT (addPathFinished ["/x".toList, "/y".toList] (FsBufPtr.buf 5)
        (some [("/x".toList, FsBufPtr.null), ("/y".toList, FsBufPtr.null)]))
      (fun _ => some "/y".toList) (fun _ => "/x/".toList) "/y".toList = some true :=
  ⟨by decide,
   ((addPath_mount_aliasing (fun _ => "serial:X".toList)
      (fun _ => ["/x".toList, "/y".toList]) (some [])
      (some [("/x".toList, FsBufPtr.null), ("/y".toList, FsBufPtr.null)])
      "/x".toList "/x/".toList ["/x".toList, "/y".toList] (by decide)).2.2.1
      (some [("/x".toList, FsBufPtr.null), ("/y".toList, FsBufPtr.null)]) 5 "/y".toList
      (by decide)).2.2 (fun _ => some "/y".toList) (fun _ => "/x/".toList)
      (by decide) (by decide)⟩

theorem syncLoop_saves (rootPath : QString → QString) (lftFile : QString → QString)
    (save_fs_buf : FsBufPtr → QString → Bool) (mountPoint : QString)
    (entries : FSBufMap) (st : SyncState)
    (h1 : st.saved_buf_list = st.saves.map (fun s => s.2.1))
    (h2 : st.saved_buf_list.Nodup) :
    (syncLoop rootPath lftFile save_fs_buf mountPoint entries st).saved_buf_list
      = (syncLoop rootPath lftFile save_fs_buf mountPoint entries st).saves.map
          (fun s => s.2.1) ∧
    (syncLoop rootPath lftFile save_fs_buf mountPoint entries st).saved_buf_list.Nodup ∧
    (∀ b, b ∈ (syncLoop rootPath lftFile save_fs_buf mountPoint entries st).saved_buf_list ↔
      b ∈ st.saved_buf_list ∨
        ∃ k, (k, b) ∈ entries ∧ b.toBool = true ∧ passesFilter rootPath mountPoint k = true) ∧
    (∀ s, s ∈ (syncLoop rootPath lftFile save_fs_buf mountPoint entries st).saves →
      s ∈ st.saves ∨ ((s.1, s.2.1) ∈ entries ∧ s.2.1.toBool = true ∧
        passesFilter rootPath mountPoint s.1 = true ∧ s.2.2 = lftFile s.1)) := by
  induction entries generalizing st with
  | nil =>
    refine ⟨h1, h2, ?_, ?_⟩
    · intro b
      simp [syncLoop]
    · intro s hs
      exact Or.inl hs
  | cons e rest ih =>
    obtain ⟨path, buf⟩ := e
    unfold syncLoop
    by_cases hb : buf.toBool = true
    · by_cases hf : passesFilter rootPath mountPoint path = true
      · have hf2 : (!mountPoint.isEmpty && rootPath path != mountPoint) = false := by
          simp only [passesFilter, Bool.or_eq_true, beq_iff_eq] at hf
          rcases hf with hf | hf
          · simp [hf]
          · simp [hf]
        by_cases hc : st.saved_buf_list.contains buf = true
        · simp only [hb, hf2, hc, Bool.not_true, Bool.false_eq_true, if_false, if_true]
          obtain ⟨a1, a2, a3, a4⟩ := ih { st with path_list := st.path_list ++ [path] } h1 h2
          refine ⟨a1, a2, ?_, ?_⟩
          · intro b
            rw [a3 b]
            constructor
            · rintro (h | ⟨k, hk, hk2, hk3⟩)
              · exact Or.inl h
              · exact Or.inr ⟨k, List.mem_cons_of_mem _ hk, hk2, hk3⟩
            · rintro (h | ⟨k, hk, hk2, hk3⟩)
              · exact Or.inl h
              · rcases List.mem_cons.1 hk with hk | hk
                · have hbb : b = buf := (Prod.mk.inj hk).2
                  subst hbb
                  exact Or.inl (by simpa using hc)
                · exact Or.inr ⟨k, hk, hk2, hk3⟩
          · intro s hs
            rcases a4 s hs with h | ⟨h, h3, h4, h5⟩
            · exact Or.inl h
            · exact Or.inr ⟨List.mem_cons_of_mem _ h, h3, h4, h5⟩
        · have hnm : buf ∉ st.saved_buf_list := by simpa using hc
          simp only [hb, hf2, hc, Bool.not_true, Bool.false_eq_true, if_false]
          obtain ⟨a1, a2, a3, a4⟩ := ih
            { path_list :=
                if save_fs_buf buf (lftFile path) then st.path_list ++ [path] else st.path_list
              saved_buf_list := st.saved_buf_list ++ [buf]
              saves := st.saves ++ [(path, buf, lftFile path)] }
            (by simp [h1])
            (by
              simp only
              rw [List.nodup_append]
              refine ⟨h2, List.nodup_singleton _, ?_⟩
              intro a ha hb2
              rw [List.mem_singleton] at hb2
              exact hnm (hb2 ▸ ha))
          refine ⟨a1, a2, ?_, ?_⟩
          · intro b
            rw [a3 b]
            simp only [List.mem_append, List.mem_singleton]
            constructor
            · rintro ((h | h) | ⟨k, hk, hk2, hk3⟩)
              · exact Or.inl h
              · exact Or.inr ⟨path, h ▸ List.mem_cons_self _ _, h ▸ hb, hf⟩
              · exact Or.inr ⟨k, List.mem_cons_of_mem _ hk, hk2, hk3⟩
            · rintro (h | ⟨k, hk, hk2, hk3⟩)
              · exact Or.inl (Or.inl h)
              · rcases List.mem_cons.1 hk with hk | hk
                · exact Or.inl (Or.inr (Prod.mk.inj hk).2)
                · exact Or.inr ⟨k, hk, hk2, hk3⟩
          · intro s hs
            rcases a4 s hs with h | ⟨h, h3, h4, h5⟩
            · simp only [List.mem_append, List.mem_singleton] at h
              rcases h with h | h
              · exact Or.inl h
              · subst h
                exact Or.inr ⟨List.mem_cons_self _ _, hb, hf, rfl⟩
            · exact Or.inr ⟨List.mem_cons_of_mem _ h, h3, h4, h5⟩
      · have hf2 : (!mountPoint.isEmpty && rootPath path != mountPoint) = true := by
          simp only [passesFilter, Bool.or_eq_true, beq_iff_eq, not_or] at hf
          simp [hf.1, hf.2]
        simp only [hb, hf2, Bool.not_true, Bool.false_eq_true, if_false, if_true]
        obtain ⟨a1, a2, a3, a4⟩ := ih st h1 h2
        refine ⟨a1, a2, ?_, ?_⟩
        · intro b
          rw [a3 b]
          constructor
          · rintro (h | ⟨k, hk, hk2, hk3⟩)
            · exact Or.inl h
            · exact Or.inr ⟨k, List.mem_cons_of_mem _ hk, hk2, hk3⟩
          · rintro (h | ⟨k, hk, hk2, hk3⟩)
            · exact Or.inl h
            · rcases List.mem_cons.1 hk with hk | hk
              · have hkk : k = path := (Prod.mk.inj hk).1
                subst hkk
                exact absurd hk3 hf
              · exact Or.inr ⟨k, hk, hk2, hk3⟩
        · intro s hs
          rcases a4 s hs with h | ⟨h, h3, h4, h5⟩
          · exact Or.inl h
          · exact Or.inr ⟨List.mem_cons_of_mem _ h, h3, h4, h5⟩
    · have hb2 : buf.toBool = false := by simpa using hb
      simp only [hb2, Bool.not_false, if_true]
      obtain ⟨a1, a2, a3, a4⟩ := ih st h1 h2
      refine ⟨a1, a2, ?_, ?_⟩
      · intro b
        rw [a3 b]
        constructor
        · rintro (h | ⟨k, hk, hk2, hk3⟩)
          · exact Or.inl h
          · exact Or.inr ⟨k, List.mem_cons_of_mem _ hk, hk2, hk3⟩
        · rintro (h | ⟨k, hk, hk2, hk3⟩)
          · exact Or.inl h
          · rcases List.mem_cons.1 hk with hk | hk
            · have hbb : b = buf := (Prod.mk.inj hk).2
              subst hbb
              exact absurd hk2 hb
            · exact Or.inr ⟨k, hk, hk2, hk3⟩
      · intro s hs
        rcases a4 s hs with h | ⟨h, h3, h4, h5⟩
        · exact Or.inl h
        · exact Or.inr ⟨List.mem_cons_of_mem _ h, h3, h4, h5⟩

theorem FSBufMap.value_mem (m : FSBufMap) (k : QString) (d : FsBufPtr) (hk : k ∈ m.keys) :
    (k, m.value k d) ∈ m := by
  induction m with
  | nil => simp [FSBufMap.keys] at hk
  | cons e rest ih =>
    obtain ⟨k1, w⟩ := e
    by_cases h1 : k1 = k
    · subst h1
      simp only [FSBufMap.value, if_true]
      exact List.mem_cons_self _ _
    · simp only [FSBufMap.value, h1, if_false]
      simp only [FSBufMap.keys, List.map_cons, List.mem_cons] at hk
      rcases hk with hk | hk
      · exact absurd hk.symm h1
      · exact List.mem_cons_of_mem _ (ih hk)

theorem refreshInstall_spec (buf : FsBufPtr) (L : List QString)
    (st : FSBufMap × List QString) :
    (refreshInstall buf L st).2 = st.2 ++ L.map (fun p => chop p 4) ∧
    (∀ k, k ∈ (refreshInstall buf L st).1.keys ↔
      k ∈ st.1.keys ∨ k ∈ L.map (fun p => chop p 4)) ∧
    (∀ e, e ∈ (refreshInstall buf L st).1 → e ∈ st.1 ∨ e.2 = buf) ∧
    (∀ k d, (k ∈ L.map (fun p => chop p 4) → (refreshInstall buf L st).1.value k d = buf) ∧
      (k ∉ L.map (fun p => chop p 4) →
        (refreshInstall buf L st).1.value k d = st.1.value k d)) := by
  induction L generalizing st with
  | nil =>
    refine ⟨by simp [refreshInstall], ?_, ?_, ?_⟩
    · intro k
      simp [refreshInstall]
    · intro e he
      exact Or.inl he
    · intro k d
      simp [refreshInstall]
  | cons q rest ih =>
    obtain ⟨a1, a2, a3, a4⟩ := ih (st.1.insert (chop q 4) buf, st.2 ++ [chop q 4])
    simp only [refreshInstall]
    refine ⟨?_, ?_, ?_, ?_⟩
    · rw [a1]
      simp
    · intro k
      rw [a2 k]
      simp only [FSBufMap.mem_keys_insert, List.map_cons, List.mem_cons]
      tauto
    · intro e he
      rcases a3 e he with h | h
      · rcases FSBufMap.mem_insert _ _ _ _ h with h | h
        · exact Or.inr (by rw [h])
        · exact Or.inl h
      · exact Or.inr h
    · intro k d
      obtain ⟨b1, b2⟩ := a4 k d
      constructor
      · intro hk
        by_cases hr : k ∈ rest.map (fun p => chop p 4)
        · exact b1 hr
        · rw [b2 hr]
          simp only [List.map_cons, List.mem_cons] at hk
          rcases hk with hk | hk
          · rw [hk]
            exact FSBufMap.value_insert_self _ _ _ _
          · exact absurd hk hr
      · intro hk
        simp only [List.map_cons, List.mem_cons, not_or] at hk
        rw [b2 hk.2]
        exact FSBufMap.value_insert_of_ne _ _ _ _ _ (fun h => hk.1 h.symm)

theorem refreshLoop_cons (cache_path : QString) (serialUriFilter : QByteArray)
    (load_fs_buf : QString → Option Nat) (fromSerialUri : QByteArray → List QString)
    (fileName : QString) (rest : List QString) (st : FSBufMap × List QString) :
    refreshLoop cache_path serialUriFilter load_fs_buf fromSerialUri (fileName :: rest) st
      = refreshLoop cache_path serialUriFilter load_fs_buf fromSerialUri rest
          (refreshLoop cache_path serialUriFilter load_fs_buf fromSerialUri [fileName] st) := by
  simp only [refreshLoop]
  split
  · rfl
  · split <;> rfl

theorem refreshLoop_single (cache_path : QString) (serialUriFilter : QByteArray)
    (load_fs_buf : QString → Option Nat) (fromSerialUri : QByteArray → List QString)
    (fileName : QString) (st : FSBufMap × List QString) :
    (refreshLoop cache_path serialUriFilter load_fs_buf fromSerialUri [fileName] st).2
      = st.2 ++ refreshContribution cache_path serialUriFilter load_fs_buf fromSerialUri
          fileName ∧
    (∀ k, k ∈ (refreshLoop cache_path serialUriFilter load_fs_buf fromSerialUri
        [fileName] st).1.keys ↔
      k ∈ st.1.keys ∨ k ∈ refreshContribution cache_path serialUriFilter load_fs_buf
        fromSerialUri fileName) ∧
    (∀ e, e ∈ (refreshLoop cache_path serialUriFilter load_fs_buf fromSerialUri
        [fileName] st).1 → e ∈ st.1 ∨ ∃ addr, e.2 = FsBufPtr.buf addr) := by
  simp only [refreshLoop, refreshContribution]
  split
  · exact ⟨(List.append_nil _).symm, fun k => by simp only [List.not_mem_nil, or_false],
      fun e he => Or.inl he⟩
  · split
    · exact ⟨(List.append_nil _).symm, fun k => by simp only [List.not_mem_nil, or_false],
        fun e he => Or.inl he⟩
    · rename_i addr hl
      obtain ⟨a1, a2, a3, _⟩ := refreshInstall_spec (FsBufPtr.buf addr)
        (fromSerialUri (fromPercentEncoding fileName)) st
      refine ⟨a1, a2, ?_⟩
      intro e he
      rcases a3 e he with h | h
      · exact Or.inl h
      · exact Or.inr ⟨addr, h⟩

theorem refreshLoop_spec (cache_path : QString) (serialUriFilter : QByteArray)
    (load_fs_buf : QString → Option Nat) (fromSerialUri : QByteArray → List QString)
    (files : List QString) (st : FSBufMap × List QString) :
    (refreshLoop cache_path serialUriFilter load_fs_buf fromSerialUri files st).2
      = st.2 ++ files.flatMap
          (refreshContribution cache_path serialUriFilter load_fs_buf fromSerialUri) ∧
    (∀ k, k ∈ (refreshLoop cache_path serialUriFilter load_fs_buf fromSerialUri
        files st).1.keys ↔
      k ∈ st.1.keys ∨ k ∈ files.flatMap
        (refreshContribution cache_path serialUriFilter load_fs_buf fromSerialUri)) ∧
    (∀ e, e ∈ (refreshLoop cache_path serialUriFilter load_fs_buf fromSerialUri
        files st).1 → e ∈ st.1 ∨ ∃ addr, e.2 = FsBufPtr.buf addr) := by
  induction files generalizing st with
  | nil =>
    refine ⟨by simp [refreshLoop], ?_, ?_⟩
    · intro k
      simp [refreshLoop]
    · intro e he
      exact Or.inl he
  | cons f rest ih =>
    rw [refreshLoop_cons]
    obtain ⟨s1, s2, s3⟩ := refreshLoop_single cache_path serialUriFilter load_fs_buf
      fromSerialUri f st
    obtain ⟨a1, a2, a3⟩ := ih
      (refreshLoop cache_path serialUriFilter load_fs_buf fromSerialUri [f] st)
    refine ⟨?_, ?_, ?_⟩
    · rw [a1, s1]
      simp [List.flatMap_cons]
    · intro k
      rw [a2 k, s2 k]
      simp only [List.flatMap_cons, List.mem_append]
      tauto
    · intro e he
      rcases a3 e he with h | h
      · exact s3 e h
      · exact Or.inr h

/-- C7 (the claim as stated fails): `/x` and `/y` key one ready index and no
mount-point filter is given, but the cache directory cannot be created; `sync`
returns before its loop and saves nothing. -/
theorem sync_without_cache_dir_saves_nothing :
    passesFilter (fun _ => "/".toList) [] "/x".toList = true ∧
    (sync false (fun _ => "/".toList)
        (getLFTFileByPath (fun _ => "serial:X".toList) "/c".toList) (fun _ _ => true)
        (some [("/x".toList, FsBufPtr.buf 1), ("/y".toList, FsBufPtr.buf 1)]) []).saves
      = [] := by
  decide

/-- C7 (amended): in one call of `sync` the calls of `save_fs_buf` are for
pairwise different buffers; a buffer is saved exactly when the cache directory
is in place (`mkpath` succeeds) and some key maps to it (non-null) and passes
the mount-point filter; every save is made for an entry of the map whose
buffer is not null, so none for a key that is being built; with the cache
directory in place two keys on one buffer give one save; and when the cache
directory cannot be created nothing is saved. -/
theorem sync_one_save_per_index (mkpath : Bool) (rootPath : QString → QString)
    (lftFile : QString → QString) (save_fs_buf : FsBufPtr → QString → Bool) (g : Global)
    (mountPoint : QString) :
    ((sync mkpath rootPath lftFile save_fs_buf g mountPoint).saves.map
      (fun s => s.2.1)).Nodup ∧
    (∀ b, b ∈ (sync mkpath rootPath lftFile save_fs_buf g mountPoint).saves.map
        (fun s => s.2.1) ↔
      mkpath = true ∧
        ∃ k, (k, b) ∈ g.deref ∧ b.toBool = true ∧
          passesFilter rootPath mountPoint k = true) ∧
    (∀ s, s ∈ (sync mkpath rootPath lftFile save_fs_buf g mountPoint).saves →
      (s.1, s.2.1) ∈ g.deref ∧ s.2.1 ≠ FsBufPtr.null ∧
        passesFilter rootPath mountPoint s.1 = true ∧ s.2.2 = lftFile s.1) ∧
    (∀ (k1 k2 : QString) (addr : Nat),
      (sync true rootPath lftFile save_fs_buf
        (some [(k1, FsBufPtr.buf addr), (k2, FsBufPtr.buf addr)]) []).saves.length = 1) ∧
    (sync false rootPath lftFile save_fs_buf g mountPoint).saves = [] := by
  have hlast : ∀ (k1 k2 : QString) (addr : Nat),
      (sync true rootPath lftFile save_fs_buf
        (some [(k1, FsBufPtr.buf addr), (k2, FsBufPtr.buf addr)]) []).saves.length = 1 := by
    intro k1 k2 addr
    simp [sync, syncLoop, Global.deref, FsBufPtr.toBool]
  cases mkpath with
  | false =>
    have hs : sync false rootPath lftFile save_fs_buf g mountPoint = ⟨[], [], []⟩ := by
      simp [sync]
    rw [hs]
    refine ⟨List.nodup_nil, ?_, ?_, hlast, rfl⟩
    · intro b
      simp
    · intro s hs2
      simp at hs2
  | true =>
    obtain ⟨a1, a2, a3, a4⟩ := syncLoop_saves rootPath lftFile save_fs_buf mountPoint g.deref
      ⟨[], [], []⟩ rfl List.nodup_nil
    have hs : sync true rootPath lftFile save_fs_buf g mountPoint
        = syncLoop rootPath lftFile save_fs_buf mountPoint g.deref ⟨[], [], []⟩ := by
      simp [sync]
    rw [hs]
    refine ⟨a1 ▸ a2, ?_, ?_, hlast, by simp [sync]⟩
    · intro b
      rw [← a1, a3 b]
      simp
    · intro s hs2
      rcases a4 s hs2 with h | ⟨h1, h2, h3, h4⟩
      · simp at h
      · refine ⟨h1, ?_, h3, h4⟩
        intro hn
        rw [hn] at h2
        simp [FsBufPtr.toBool] at h2

/-- C6 (the code at the failing input): `/x` and `/y` key one buffer and the
write of that buffer fails; `sync()` makes the one write, for `/x`, and still
returns `/y`. -/
theorem sync_reports_alias_of_failed_write :
    (sync true (fun _ => "/".toList)
        (getLFTFileByPath (fun _ => "serial:X".toList) "/c".toList) (fun _ _ => false)
        (some [("/x".toList, FsBufPtr.buf 1), ("/y".toList, FsBufPtr.buf 1)]) []).path_list
      = ["/y".toList] ∧
    (sync true (fun _ => "/".toList)
        (getLFTFileByPath (fun _ => "serial:X".toList) "/c".toList) (fun _ _ => false)
        (some [("/x".toList, FsBufPtr.buf 1), ("/y".toList, FsBufPtr.buf 1)]) []).saves
      = [("/x".toList, FsBufPtr.buf 1, "/c/serial:X.lft".toList)] := by
  decide

/-- C9: whatever the registry held before and whatever the filter, after
`refresh` the keys of the registry are the paths of the returned list, every
key maps to a loaded buffer, the outcome does not depend on the registry
before the call, the returned list is made of the contributions of the files
in order, and a file that does not load contributes nothing. -/
theorem refresh_registry_is_returned_list (cache_path : QString) (files : List QString)
    (load_fs_buf : QString → Option Nat) (fromSerialUri : QByteArray → List QString)
    (g : Global) (serialUriFilter : QByteArray) :
    (∀ k, k ∈ (refresh cache_path files load_fs_buf fromSerialUri g
        serialUriFilter).1.deref.keys ↔
      k ∈ (refresh cache_path files load_fs_buf fromSerialUri g serialUriFilter).2) ∧
    (∀ k, k ∈ (refresh cache_path files load_fs_buf fromSerialUri g
        serialUriFilter).1.deref.keys →
      ∃ addr, (refresh cache_path files load_fs_buf fromSerialUri g
        serialUriFilter).1.deref.value k FsBufPtr.sentinel = FsBufPtr.buf addr) ∧
    refresh cache_path files load_fs_buf fromSerialUri g serialUriFilter
      = refresh cache_path files load_fs_buf fromSerialUri none serialUriFilter ∧
    (refresh cache_path files load_fs_buf fromSerialUri g serialUriFilter).2
      = files.flatMap
          (refreshContribution cache_path serialUriFilter load_fs_buf fromSerialUri) ∧
    (∀ f, load_fs_buf (cache_path ++ ['/'] ++ f) = none →
      refreshContribution cache_path serialUriFilter load_fs_buf fromSerialUri f = []) := by
  obtain ⟨a1, a2, a3⟩ := refreshLoop_spec cache_path serialUriFilter load_fs_buf fromSerialUri
    files ([], [])
  refine ⟨?_, ?_, rfl, ?_, ?_⟩
  · intro k
    simp only [refresh, clearFsBufMap, Global.deref, Option.getD_some]
    rw [a2 k, a1]
    simp [FSBufMap.keys]
  · intro k hk
    simp only [refresh, clearFsBufMap, Global.deref, Option.getD_some] at hk ⊢
    rcases a3 _ (FSBufMap.value_mem _ k FsBufPtr.sentinel hk) with h | h
    · simp at h
    · exact h
  · simp only [refresh, clearFsBufMap, Global.deref, Option.getD_some]
    rw [a1]
    simp
  · intro f hf
    simp only [refreshContribution, hf]
    split <;> rfl

theorem toPercentEncoding_append (a b dontEncode alsoEncode : QByteArray) :
    toPercentEncoding (a ++ b) dontEncode alsoEncode
      = toPercentEncoding a dontEncode alsoEncode ++ toPercentEncoding b dontEncode alsoEncode := by
  induction a with
  | nil => rfl
  | cons c rest ih => simp [toPercentEncoding, ih]

theorem toHexUpper_ne_slash (n : Nat) : toHexUpper n ≠ '/' := by
  have h : ∀ i, i < 16 → "0123456789ABCDEF".toList.getD i '0' ≠ '/' := by decide
  exact h (n % 16) (Nat.mod_lt _ (by decide))

theorem slash_not_mem_toPercentEncoding (u dontEncode : QByteArray) :
    '/' ∉ toPercentEncoding u dontEncode ['/'] := by
  induction u with
  | nil => simp [toPercentEncoding]
  | cons c rest ih =>
    simp only [toPercentEncoding, List.mem_append, not_or]
    refine ⟨?_, ih⟩
    unfold encodeByte
    split
    · rename_i h
      intro hm
      have hc : c = '/' := by
        simp only [List.mem_cons, List.not_mem_nil, or_false] at hm
        exact hm.symm
      subst hc
      simp at h
    · intro hm
      simp only [List.mem_cons, List.not_mem_nil, or_false] at hm
      rcases hm with hm | hm | hm
      · exact absurd hm (by decide)
      · exact toHexUpper_ne_slash _ hm.symm
      · exact toHexUpper_ne_slash _ hm.symm

/-- C5 (the claim as stated fails): in the file name and in the filter derived
from the serial URI `serial:X/s` the `:` is left as it is and the `/` is
escaped as `%2F`; the name the claim describes, `serial%3AX/s`, is not what
the code produces. -/
theorem lft_name_claim_fails :
    toPercentEncoding "serial:X/s".toList ":".toList "/".toList = "serial:X%2Fs".toList ∧
    toPercentEncoding "serial:X/s".toList ":".toList "/".toList ≠ "serial%3AX/s".toList ∧
    getLFTFileByPath (fun _ => "serial:X/s".toList) "/c".toList "/x/s".toList
      = "/c/serial:X%2Fs.lft".toList ∧
    onMountAddedFilter (fun _ => "serial:X/s".toList) "/x/s".toList
      = "serial:X%2Fs".toList := by
  decide

/-- C5 (amended): the percent-encoding of `getLFTFileByPath` and of the filter
of `onMountAdded` is `toPercentEncoding(":", "/")` of the serial URI; it
escapes every `/` byte as `%2F`, leaves every `:` byte unencoded, and its
output holds no `/` byte at all. -/
theorem lft_name_escapes_slash_keeps_colon (pathToSerialUri : QString → QByteArray)
    (path cache_path : QString) (c0 : Char) (pre post : QByteArray) :
    getLFTFileByPath pathToSerialUri (c0 :: cache_path) path
      = (if (pathToSerialUri path).isEmpty then []
         else (c0 :: cache_path) ++ ['/'] ++
           toPercentEncoding (pathToSerialUri path ++ ".lft".toList) [':'] ['/']) ∧
    onMountAddedFilter pathToSerialUri path
      = toPercentEncoding (pathToSerialUri path) [':'] ['/'] ∧
    toPercentEncoding (pre ++ '/' :: post) [':'] ['/']
      = toPercentEncoding pre [':'] ['/'] ++ ['%', '2', 'F']
          ++ toPercentEncoding post [':'] ['/'] ∧
    toPercentEncoding (pre ++ ':' :: post) [':'] ['/']
      = toPercentEncoding pre [':'] ['/'] ++ [':'] ++ toPercentEncoding post [':'] ['/'] ∧
    '/' ∉ toPercentEncoding pre [':'] ['/'] := by
  refine ⟨?_, rfl, ?_, ?_, slash_not_mem_toPercentEncoding pre [':']⟩
  · simp only [getLFTFileByPath, List.isEmpty_cons, Bool.false_eq_true, if_false]
    rfl
  · rw [toPercentEncoding_append]
    have h : encodeByte [':'] ['/'] '/' = ['%', '2', 'F'] := by decide
    simp [toPercentEncoding, h]
  · rw [toPercentEncoding_append]
    have h : encodeByte [':'] ['/'] ':' = [':'] := by decide
    simp [toPercentEncoding, h]

/-- C1 (the code at the failing input): the registry holds the mount point
`/t` with a ready index and `/t/b` lies on the storage rooted at `/t`; the walk
stops when it reaches `/t`, before looking `/t` up, so the lookup returns the
default and `hasLFT("/t/b")` is false, while `hasLFT("/t")` is true. -/
theorem lookup_skips_storage_root_key :
    getFsBufByPath (some [("/t".toList, FsBufPtr.buf 7)]) (fun _ => some "/t".toList)
        (fun _ => "/t/".toList) "/t/b".toList FsBufPtr.null
      = some (FsBufPtr.null, "/t/b".toList) ∧
    hasLFT (some [("/t".toList, FsBufPtr.buf 7)]) (fun _ => some "/t".toList)
        (fun _ => "/t/".toList) "/t/b".toList = some false ∧
    hasLFT (some [("/t".toList, FsBufPtr.buf 7)]) (fun _ => some "/t".toList)
        (fun _ => "/t/".toList) "/t".toList = some true ∧
    hasLFT (some [("/t".toList, FsBufPtr.buf 7)]) (fun _ => some "/".toList)
        (fun _ => "/t/".toList) "/t/b".toList = some true := by
  decide

/-- C2 (the code at the failing inputs): `lftBuinding` is true for a path with
no key and for a path whose key has a ready index, and false for a path whose
key is being built. -/
theorem lftBuinding_is_inverted :
    lftBuinding (some []) (fun _ => some "/".toList) (fun _ => "/a/".toList) "/a".toList
      = some true ∧
    lftBuinding (some [("/a".toList, FsBufPtr.buf 7)]) (fun _ => some "/".toList)
        (fun _ => "/a/".toList) "/a".toList = some true ∧
    lftBuinding (some [("/a".toList, FsBufPtr.null)]) (fun _ => some "/".toList)
        (fun _ => "/a/".toList) "/a".toList = some false := by
  decide

/-- C10 (the code at the failing input): with key `/y` on an index of root
`/x/`, the path `/y/a/b` is rewritten to `/x//a`, not `/x/a/b`: the suffix
`/a/b` loses its last character instead of its first.  The key itself, `/y`,
is rewritten to `/x`.  Likewise for the key `/m2/s` of a device mounted on
`/m1` and `/m2`. -/
theorem rewrite_chops_the_end :
    getFsBufByPath (some [("/y".toList, FsBufPtr.buf 7)]) (fun _ => some "/".toList)
        (fun _ => "/x/".toList) "/y/a/b".toList FsBufPtr.null
      = some (FsBufPtr.buf 7, "/x//a".toList) ∧
    getFsBufByPath (some [("/y".toList, FsBufPtr.buf 7)]) (fun _ => some "/".toList)
        (fun _ => "/x/".toList) "/y".toList FsBufPtr.null
      = some (FsBufPtr.buf 7, "/x".toList) ∧
    getFsBufByPath
        (some [("/m1/s".toList, FsBufPtr.buf 7), ("/m2/s".toList, FsBufPtr.buf 7)])
        (fun _ => some "/m2".toList) (fun _ => "/m1/s/".toList) "/m2/s/a/b".toList
        FsBufPtr.null
      = some (FsBufPtr.buf 7, "/m1/s//a".toList) := by
  decide

/-- C4 (the code at the failing input): key `/t` on the index of root `/t/`,
found from `/t/b` on the storage rooted at `/`.  Whatever the scan delivers,
`search("/t/b", "c", false)` asks it about `/t/`, not `/t/b`, and returns each
match with `/t/b` put in place of its first two characters: a scan that
answers for `/t/b` only is never used, and the match `/t/b/c` comes back as
`/t/b/b/c`.  For the key itself, `search("/t", "c", false)` returns `/t/b/c`.
With `/t` as the storage root the lookup misses and the result is empty. -/
theorem search_prepends_the_caller_path :
    (∀ scan : FsBufPtr → QString → QString → Bool → List (List QString),
      search (some [("/t".toList, FsBufPtr.buf 7)]) (fun _ => some "/".toList)
          (fun _ => "/t/".toList) (fun _ => true) scan "/t/b".toList "c".toList false
        = some (searchLoop (fun origin_path => "/t/b".toList ++ mid origin_path 2)
            (scan (FsBufPtr.buf 7) "/t/".toList "c".toList false))) ∧
    search (some [("/t".toList, FsBufPtr.buf 7)]) (fun _ => some "/".toList)
        (fun _ => "/t/".toList) (fun _ => true)
        (fun _ new_path _ _ => if new_path = "/t/b".toList then [["/t/b/c".toList]] else [])
        "/t/b".toList "c".toList false = some [] ∧
    search (some [("/t".toList, FsBufPtr.buf 7)]) (fun _ => some "/".toList)
        (fun _ => "/t/".toList) (fun _ => true)
        (fun _ new_path _ _ => if new_path = "/t/".toList then [["/t/b/c".toList]] else [])
        "/t/b".toList "c".toList false = some ["/t/b/b/c".toList] ∧
    search (some [("/t".toList, FsBufPtr.buf 7)]) (fun _ => some "/".toList)
        (fun _ => "/t/".toList) (fun _ => true)
        (fun _ new_path _ _ => if new_path = "/t".toList then [["/t/b/c".toList]] else [])
        "/t".toList "c".toList false = some ["/t/b/c".toList] ∧
    search (some [("/t".toList, FsBufPtr.buf 7)]) (fun _ => some "/t".toList)
        (fun _ => "/t/".toList) (fun _ => true)
        (fun _ _ _ _ => [["/t/b/c".toList]])
        "/t/b".toList "c".toList false = some [] := by
  refine ⟨?_, by decide, by decide, by decide, by decide⟩
  intro scan
  have h : getFsBufByPath (some [("/t".toList, FsBufPtr.buf 7)]) (fun _ => some "/".toList)
      (fun _ => "/t/".toList) "/t/b".toList FsBufPtr.null
      = some (FsBufPtr.buf 7, "/t/".toList) := by decide
  unfold search
  rw [h]
  rfl

theorem lastIndexOf_lt (c : Char) (l : QString) (i : Nat) (h : lastIndexOf c l = some i) :
    i < l.length := by
  induction l generalizing i with
  | nil => simp [lastIndexOf] at h
  | cons x xs ih =>
    unfold lastIndexOf at h
    cases hr : lastIndexOf c xs with
    | some j =>
      rw [hr] at h
      simp only [Option.some.injEq] at h
      have := ih j hr
      simp only [List.length_cons]
      omega
    | none =>
      rw [hr] at h
      simp only at h
      split at h
      · simp only [Option.some.injEq] at h
        simp only [List.length_cons]
        omega
      · simp at h

theorem lastIndexOf_zero_head (c : Char) (l : QString) (h : lastIndexOf c l = some 0) :
    l.head? = some c := by
  cases l with
  | nil => simp [lastIndexOf] at h
  | cons x xs =>
    unfold lastIndexOf at h
    cases hr : lastIndexOf c xs with
    | some j =>
      rw [hr] at h
      simp at h
    | none =>
      rw [hr] at h
      simp only at h
      split at h
      · rename_i hx
        simp [hx]
      · simp at h

/-- The loop of `getFsBufByPath` ends: with more fuel than `result_path` has
characters it returns. -/
theorem getFsBufByPathLoop_returns (m : FSBufMap) (rootPath : QString)
    (get_root_path : FsBufPtr → QString) (default_value : FsBufPtr) (path : QString)
    (fuel : Nat) (result_path : QString) (hfuel : result_path.length < fuel) :
    (getFsBufByPathLoop m rootPath get_root_path default_value path fuel result_path).isSome
      = true := by
  induction fuel generalizing result_path with
  | zero => omega
  | succ n ih =>
    unfold getFsBufByPathLoop
    simp only
    split
    · rfl
    · split
      · rfl
      · rename_i hne
        split
        · rfl
        · rename_i pos hpos
          have hlt := lastIndexOf_lt _ _ _ hpos
          have hlen : (if (left result_path pos).isEmpty = true then ['/']
              else left result_path pos).length < n := by
            by_cases he : (left result_path pos).isEmpty = true
            · rw [if_pos he]
              simp only [List.length_singleton]
              have hp0 : pos = 0 := by
                simp only [left, List.isEmpty_eq_true, List.take_eq_nil_iff] at he
                rcases he with he | he
                · exact he
                · rw [he] at hlt
                  simp at hlt
              subst hp0
              have hh := lastIndexOf_zero_head _ _ hpos
              cases result_path with
              | nil => simp at hh
              | cons x xs =>
                simp only [List.head?_cons, Option.some.injEq] at hh
                subst hh
                cases xs with
                | nil => exact absurd rfl hne
                | cons y ys =>
                  simp only [List.length_cons] at hfuel ⊢
                  omega
            · rw [if_neg he]
              simp only [left, List.length_take]
              omega
          generalize (if (left result_path pos).isEmpty = true then ['/']
              else left result_path pos) = rp2 at hlen ⊢
          split
          · exact ih rp2 hlen
          · rfl

/-- The function `getFsBufByPath` is total: the fuel it runs its loop with is
enough. -/
theorem getFsBufByPath_returns (g : Global) (storage : QString → Option QString)
    (get_root_path : FsBufPtr → QString) (path : QString) (default_value : FsBufPtr) :
    (getFsBufByPath g storage get_root_path path default_value).isSome = true := by
  unfold getFsBufByPath
  split
  · rfl
  · split
    · rfl
    · split
      · rfl
      · exact getFsBufByPathLoop_returns _ _ _ _ _ _ _ (Nat.lt_succ_self _)

end LFT
